import Mathlib

/-!
Shallow embedding of `src/pipeline.py`, a dagster pipeline that downloads
per-minute OHLCV bars, validates and cleans them, computes a rolling
15-minute VWAP and a cumulative dollar value, and merges the per-symbol
outputs sorted by timestamp.

Numeric cells are modelled by `ℚ` (exact arithmetic standing in for float
arithmetic); the IEEE behaviour of dividing a finite value by zero is kept
explicitly by `fdiv`, which returns NaN for 0/0 and ±infinity otherwise.
Timestamps are integers counting minutes.
-/

/-- A pandas cell as seen by the schema-level steps: numeric or string. -/
inductive Cell where
  | num (q : ℚ)
  | str (s : String)
deriving DecidableEq

/-- A pandas DataFrame at the schema level: a header of column labels and
rows of cells aligned with the header. -/
structure Frame where
  header : List String
  rows : List (List Cell)
deriving DecidableEq

/-- Python exceptions raised by the pipeline steps. -/
inductive PyErr where
  | indexError
  | keyError (label : String)
deriving DecidableEq

/-- One log record emitted through `context.log`. -/
structure LogEntry where
  severity : String
  message : String
deriving DecidableEq

def adjCloseLabel : String := "Adj Close"

def tickerLabel : String := "Ticker"

def sevError : String := "error"

def msgInvalid : String := "Data invalid for ticker"

def msgValid : String := "Data valid for ticker"

/-- `data.iloc[0]`: the first row; raises IndexError on an empty frame. -/
def iloc0 (f : Frame) : Except PyErr (List Cell) :=
  match f.rows.head? with
  | none => .error .indexError
  | some r => .ok r

/-- `row[label]`: positional lookup of a label in a row; raises KeyError
when the label is not among the columns. -/
def rowGet (header : List String) (row : List Cell) (label : String) :
    Except PyErr Cell :=
  match (header.zip row).find? (fun p => decide (p.1 = label)) with
  | none => .error (.keyError label)
  | some p => .ok p.2

/-- `validate_data` (src/pipeline.py lines 34-41): branches on `data.empty`;
both branches interpolate `data.iloc[0]['Ticker']` into a log message at
`error` severity and return the frame unchanged. -/
def validate_data (f : Frame) : Except PyErr (List LogEntry × Frame) :=
  if f.rows.isEmpty then do
    let r ← iloc0 f
    let _t ← rowGet f.header r tickerLabel
    .ok ([⟨sevError, msgInvalid⟩], f)
  else do
    let r ← iloc0 f
    let _t ← rowGet f.header r tickerLabel
    .ok ([⟨sevError, msgValid⟩], f)

/-- Dropping the cells of a labelled column from one row: keep the cells
whose aligned header label differs from `label`. -/
def dropColRow (header : List String) (label : String) (r : List Cell) :
    List Cell :=
  ((header.zip r).filter (fun p => decide (p.1 ≠ label))).map Prod.snd

/-- `clean_data` (src/pipeline.py lines 43-49):
`data.drop("Adj Close", axis=1)`, which removes the column when present and
raises KeyError when the label is not found in the axis. -/
def clean_data (f : Frame) : Except PyErr Frame :=
  if adjCloseLabel ∈ f.header then
    .ok ⟨f.header.filter (fun c => decide (c ≠ adjCloseLabel)),
         f.rows.map (dropColRow f.header adjCloseLabel)⟩
  else .error (.keyError adjCloseLabel)

/-- One OHLCV bar, the typed row shape fed into `transform_data`:
timestamp in minutes, prices and volume, and the ticker symbol. -/
structure Bar where
  ts : ℤ
  opn : ℚ
  high : ℚ
  low : ℚ
  close : ℚ
  volume : ℚ
  ticker : String
deriving DecidableEq

instance : Inhabited Bar := ⟨⟨0, 0, 0, 0, 0, 0, ""⟩⟩

/-- Column `Typical Price` (line 55): `(High + Low + Close) / 3`. -/
def typicalPrice (b : Bar) : ℚ := (b.high + b.low + b.close) / 3

/-- Column `Cumulative TPV` (line 56): despite its name it is the per-row
product `Typical Price * Volume`, not a cumulative sum. -/
def cumulativeTPV (b : Bar) : ℚ := typicalPrice b * b.volume

/-- The `Volume` column as a function of the bar. -/
def volCol (b : Bar) : ℚ := b.volume

/-- `series.rolling('15min', min_periods=1).sum()` evaluated at row `i` of a
frame whose DatetimeIndex is monotone: pandas uses the default
`closed='right'`, so the window at row `i` covers the rows `j ≤ i` whose
timestamp `ts_j` satisfies `ts_i - 15 < ts_j`. -/
def rollingSumAt (f : Bar → ℚ) (bars : List Bar) (i : ℕ) : ℚ :=
  (((bars.take (i + 1)).filter
      (fun b => decide ((bars.getD i default).ts - 15 < b.ts))).map f).sum

/-- IEEE division of a finite numerator by a finite denominator: a finite
quotient when the denominator is nonzero, NaN for 0/0, ±infinity for a
nonzero numerator over zero. -/
inductive FVal where
  | val (q : ℚ)
  | nan
  | posInf
  | negInf
deriving DecidableEq

def fdiv (a b : ℚ) : FVal :=
  if b = 0 then
    if a = 0 then .nan else if 0 < a then .posInf else .negInf
  else .val (a / b)

/-- `(data['Close'] * data['Volume']).cumsum()` at row `i` (lines 72-75). -/
def dollarValueAt (bars : List Bar) (i : ℕ) : ℚ :=
  ((bars.take (i + 1)).map (fun b => b.close * b.volume)).sum

/-- A transformed row: the original bar plus the two derived columns that
survive the temporary-column drop, `VWAP` and `DollarValue`. -/
structure AggBar where
  bar : Bar
  vwap : FVal
  dollarValue : ℚ
deriving DecidableEq

instance : Inhabited AggBar := ⟨⟨default, .nan, 0⟩⟩

/-- The row produced by `transform_data` at position `i`:
`VWAP = Rolling TPV / Rolling Volume` (line 62) and the cumulative dollar
value (line 72). -/
def aggAt (bars : List Bar) (i : ℕ) : AggBar :=
  { bar := bars.getD i default
    vwap := fdiv (rollingSumAt cumulativeTPV bars i) (rollingSumAt volCol bars i)
    dollarValue := dollarValueAt bars i }

/-- `transform_data` (src/pipeline.py lines 51-78): adds the rolling VWAP
and the cumulative dollar value to every row; the temporary helper columns
are dropped from the output. -/
def transform_data (bars : List Bar) : List AggBar :=
  (List.range bars.length).map (aggAt bars)

/-- The spec's windowed sum with the window closed on both ends:
`t - 15 ≤ ts_i ≤ t` ("inclusive of *t*, inclusive of the window's left
edge"). -/
def specWindowSumIncl (f : Bar → ℚ) (bars : List Bar) (t : ℤ) : ℚ :=
  ((bars.filter (fun b => decide (t - 15 ≤ b.ts) && decide (b.ts ≤ t))).map f).sum

/-- The windowed sum with the window open on the left and closed on the
right: `t - 15 < ts_i ≤ t`, the semantics pandas actually implements. -/
def windowSumStrict (f : Bar → ℚ) (bars : List Bar) (t : ℤ) : ℚ :=
  ((bars.filter (fun b => decide (t - 15 < b.ts) && decide (b.ts ≤ t))).map f).sum

/-- Strict ascending timestamp order, the `TimeSeries` invariant. -/
def TsSorted (bars : List Bar) : Prop :=
  bars.Pairwise (fun a b => a.ts < b.ts)

instance : DecidablePred TsSorted := fun bars =>
  inferInstanceAs (Decidable (bars.Pairwise _))

/-- The comparison pandas uses in `sort_values("Datetime")`: order by the
timestamp alone. The single-key sort is modelled as a stable sort. -/
def byDatetime (a b : AggBar) : Prop := a.bar.ts ≤ b.bar.ts

instance : DecidableRel byDatetime := fun a b =>
  inferInstanceAs (Decidable (a.bar.ts ≤ b.bar.ts))

/-- The merge half of `write_to_csv` (src/pipeline.py lines 80-92):
`pd.concat(dfs, ignore_index=False).sort_values("Datetime")`. -/
def write_to_csv_output (dfs : List (List AggBar)) : List AggBar :=
  List.insertionSort byDatetime dfs.flatten

/-- Lexicographic comparison of character lists, used to order ticker
symbols alphabetically. -/
def charListLe : List Char → List Char → Bool
  | [], _ => true
  | _ :: _, [] => false
  | a :: as, b :: bs => if a < b then true else if a = b then charListLe as bs else false

/-- Alphabetical order on ticker symbols. -/
def symbolLe (a b : String) : Prop := charListLe a.data b.data = true

instance : DecidableRel symbolLe := fun a b =>
  inferInstanceAs (Decidable (charListLe a.data b.data = true))

/-- The relation the spec claims orders the post-merge output: ascending by
timestamp with the symbol as tiebreaker on equal timestamps. -/
def postMergeRel (a b : AggBar) : Prop :=
  a.bar.ts < b.bar.ts ∨ (a.bar.ts = b.bar.ts ∧ symbolLe a.bar.ticker b.bar.ticker)

instance : DecidableRel postMergeRel := fun a b => by
  unfold postMergeRel; infer_instance

/-- The ordering the spec claims for the post-merge output. -/
def postMergeOrdered (l : List AggBar) : Prop :=
  l.Pairwise postMergeRel

instance : DecidablePred postMergeOrdered := fun l =>
  inferInstanceAs (Decidable (l.Pairwise _))

/-! ### Concrete sample data -/

def nflxTicker : String := "NFLX"

def disTicker : String := "DIS"

def openLabel : String := "Open"

def highLabel : String := "High"

def lowLabel : String := "Low"

def closeLabel : String := "Close"

def volumeLabel : String := "Volume"

/-- The raw yfinance schema with zero rows: an empty trading day. -/
def emptyFrame : Frame :=
  ⟨[openLabel, highLabel, lowLabel, closeLabel, adjCloseLabel, volumeLabel,
    tickerLabel], []⟩

/-- A one-row frame in the raw yfinance schema. -/
def rawFrame : Frame :=
  ⟨[openLabel, highLabel, lowLabel, closeLabel, adjCloseLabel, volumeLabel,
    tickerLabel],
   [[Cell.num 10, Cell.num 12, Cell.num 9, Cell.num 11, Cell.num 11,
     Cell.num 1000, Cell.str nflxTicker]]⟩

/-- A frame whose adjusted-close column is already absent. -/
def cleanedFrame : Frame :=
  ⟨[openLabel, highLabel, lowLabel, closeLabel, volumeLabel, tickerLabel],
   [[Cell.num 10, Cell.num 12, Cell.num 9, Cell.num 11, Cell.num 1000,
     Cell.str nflxTicker]]⟩

/-! ### Validation and cleaning -/

/-- C4: the claim says an empty series is returned unchanged with a
diagnostic and no error; the code instead evaluates `data.iloc[0]['Ticker']`
inside the empty branch to build the log message, and `iloc[0]` on a
zero-row frame raises IndexError. -/
theorem validate_data_empty_raises :
    validate_data emptyFrame = .error PyErr.indexError := rfl

/-- C8: `clean_data` on a frame whose header lacks the adjusted-close
column raises (KeyError from `drop`), never a silent no-op. -/
theorem clean_data_missing_column_raises (f : Frame)
    (h : adjCloseLabel ∉ f.header) :
    clean_data f = .error (PyErr.keyError adjCloseLabel) := by
  simp [clean_data, h]

theorem clean_data_missing_column_raises_witness :
    adjCloseLabel ∉ cleanedFrame.header ∧
      clean_data cleanedFrame = .error (PyErr.keyError adjCloseLabel) :=
  ⟨by decide, clean_data_missing_column_raises cleanedFrame (by decide)⟩

lemma zip_dropColRow (l : String) :
    ∀ (hs : List String) (rs : List Cell), hs.length = rs.length →
    (hs.filter (fun c => decide (c ≠ l))).zip (dropColRow hs l rs) =
      (hs.zip rs).filter (fun p => decide (p.1 ≠ l)) := by
  intro hs
  induction hs with
  | nil => intro rs h; simp [dropColRow]
  | cons c hs ih =>
    intro rs h
    cases rs with
    | nil => simp at h
    | cons r rs =>
      simp only [List.length_cons, Nat.succ.injEq] at h
      by_cases hc : c = l
      · subst hc
        simpa [dropColRow, List.filter_cons] using ih rs h
      · simpa [dropColRow, List.filter_cons, hc] using ih rs h

/-- C9: when the adjusted-close column is present, `clean_data` succeeds,
keeps the row count and row order, and each surviving (label, value) pair
of every row is exactly the original row minus the dropped column. -/
theorem clean_data_drops_only_adj_close (f : Frame)
    (h : adjCloseLabel ∈ f.header) :
    ∃ g, clean_data f = .ok g ∧
      g.rows.length = f.rows.length ∧
      g.header = f.header.filter (fun c => decide (c ≠ adjCloseLabel)) ∧
      ∀ i r, f.rows.get? i = some r → r.length = f.header.length →
        g.rows.get? i = some (dropColRow f.header adjCloseLabel r) ∧
        g.header.zip (dropColRow f.header adjCloseLabel r) =
          (f.header.zip r).filter (fun p => decide (p.1 ≠ adjCloseLabel)) := by
  have hc : clean_data f =
      .ok ⟨f.header.filter (fun c => decide (c ≠ adjCloseLabel)),
           f.rows.map (dropColRow f.header adjCloseLabel)⟩ := by
    simp [clean_data, h]
  refine ⟨_, hc, ?_, rfl, ?_⟩
  · exact List.length_map _ _
  · intro i r hget hlen
    refine ⟨?_, ?_⟩
    · simp only [List.get?_eq_getElem?] at hget ⊢
      rw [List.getElem?_map, hget]
      rfl
    · exact zip_dropColRow adjCloseLabel f.header r hlen.symm

theorem clean_data_drops_only_adj_close_witness :
    adjCloseLabel ∈ rawFrame.header ∧
    (∃ g, clean_data rawFrame = .ok g ∧
      g.rows.length = rawFrame.rows.length ∧
      g.header = rawFrame.header.filter (fun c => decide (c ≠ adjCloseLabel)) ∧
      ∀ i r, rawFrame.rows.get? i = some r → r.length = rawFrame.header.length →
        g.rows.get? i = some (dropColRow rawFrame.header adjCloseLabel r) ∧
        g.header.zip (dropColRow rawFrame.header adjCloseLabel r) =
          (rawFrame.header.zip r).filter
            (fun p => decide (p.1 ≠ adjCloseLabel))) :=
  ⟨by decide, clean_data_drops_only_adj_close rawFrame (by decide)⟩

/-! ### Lemmas about `transform_data` and the rolling window -/

lemma transform_data_get? (bars : List Bar) (i : ℕ) (hi : i < bars.length) :
    (transform_data bars).get? i = some (aggAt bars i) := by
  simp [transform_data, List.get?_eq_getElem?, List.getElem?_map,
    List.getElem?_range hi]

lemma transform_data_get?_inv {bars : List Bar} {i : ℕ} {ab : AggBar}
    (h : (transform_data bars).get? i = some ab) :
    i < bars.length ∧ ab = aggAt bars i := by
  have hlen : (transform_data bars).length = bars.length := by
    simp [transform_data]
  obtain ⟨hl, -⟩ := List.get?_eq_some.mp h
  have hi : i < bars.length := hlen ▸ hl
  refine ⟨hi, ?_⟩
  have h2 := transform_data_get? bars i hi
  rw [h2] at h
  exact (Option.some.injEq _ _ ▸ h).symm

lemma ts_le_of_mem_take {bars : List Bar} (hs : TsSorted bars) {i : ℕ}
    (hi : i < bars.length) {b : Bar} (hb : b ∈ bars.take (i + 1)) :
    b.ts ≤ bars[i].ts := by
  obtain ⟨j, hj, rfl⟩ := List.mem_iff_getElem.mp hb
  have hji : j ≤ i := by
    have := hj
    simp [List.length_take] at this
    omega
  have hjl : j < bars.length := by
    have := hj
    simp [List.length_take] at this
    omega
  rw [List.getElem_take]
  rcases Nat.lt_or_ge j i with hlt | hge
  · exact le_of_lt (List.pairwise_iff_getElem.mp hs j i hjl hi hlt)
  · have : j = i := by omega
    subst this
    exact le_refl _

lemma ts_lt_of_mem_drop {bars : List Bar} (hs : TsSorted bars) {i : ℕ}
    (hi : i < bars.length) {b : Bar} (hb : b ∈ bars.drop (i + 1)) :
    bars[i].ts < b.ts := by
  obtain ⟨j, hj, rfl⟩ := List.mem_iff_getElem.mp hb
  have hjl : i + 1 + j < bars.length := by
    have := hj
    simp [List.length_drop] at this
    omega
  rw [List.getElem_drop]
  exact List.pairwise_iff_getElem.mp hs i (i + 1 + j) hi hjl (by omega)

lemma rollingSumAt_eq_windowSumStrict (f : Bar → ℚ) {bars : List Bar}
    (hs : TsSorted bars) {i : ℕ} (hi : i < bars.length) :
    rollingSumAt f bars i = windowSumStrict f bars (bars.getD i default).ts := by
  have hgd : bars.getD i default = bars[i] := List.getD_eq_getElem bars default hi
  set t := (bars.getD i default).ts with ht
  have hts : t = bars[i].ts := by rw [ht, hgd]
  have hsplit :
      bars.filter (fun b => decide (t - 15 < b.ts) && decide (b.ts ≤ t)) =
      (bars.take (i + 1)).filter
          (fun b => decide (t - 15 < b.ts) && decide (b.ts ≤ t)) ++
        (bars.drop (i + 1)).filter
          (fun b => decide (t - 15 < b.ts) && decide (b.ts ≤ t)) := by
    conv_lhs => rw [← List.take_append_drop (i + 1) bars]
    rw [List.filter_append]
  have hdrop :
      (bars.drop (i + 1)).filter
        (fun b => decide (t - 15 < b.ts) && decide (b.ts ≤ t)) = [] := by
    rw [List.filter_eq_nil_iff]
    intro b hb
    have hlt := ts_lt_of_mem_drop hs hi hb
    simp only [Bool.and_eq_true, decide_eq_true_eq, not_and]
    intro _
    omega
  have htake :
      (bars.take (i + 1)).filter
        (fun b => decide (t - 15 < b.ts) && decide (b.ts ≤ t)) =
      (bars.take (i + 1)).filter (fun b => decide (t - 15 < b.ts)) := by
    apply List.filter_congr
    intro b hb
    have hle := ts_le_of_mem_take hs hi hb
    have h2 : decide (b.ts ≤ t) = true := by
      simp only [decide_eq_true_eq]
      omega
    rw [h2, Bool.and_true]
  rw [windowSumStrict, hsplit, hdrop, htake, List.append_nil, rollingSumAt]

/-! ### Sample series -/

/-- Bars at 09:30, 09:35, 09:40 (minutes 570, 575, 580), the spec's VWAP
test scenario. -/
def demoVb1 : Bar := ⟨570, 9, 10, 8, 9, 100, nflxTicker⟩

def demoVb2 : Bar := ⟨575, 10, 11, 9, 10, 200, nflxTicker⟩

def demoVb3 : Bar := ⟨580, 11, 12, 10, 11, 300, nflxTicker⟩

def demoV : List Bar := [demoVb1, demoVb2, demoVb3]

def demoAgg1 : AggBar := ⟨demoVb1, FVal.val 9, 900⟩

def demoAgg2 : AggBar := ⟨demoVb2, FVal.val (29 / 3), 2900⟩

def demoAgg3 : AggBar := ⟨demoVb3, FVal.val (31 / 3), 6200⟩

/-- Two bars whose timestamps are exactly 15 minutes apart. -/
def gapBar0 : Bar := ⟨0, 30, 30, 30, 30, 5, nflxTicker⟩

def gapBar1 : Bar := ⟨15, 60, 60, 60, 60, 7, nflxTicker⟩

/-- A series of flat bars 15 minutes apart with distinct typical prices. -/
def demoA : List Bar :=
  [⟨0, 30, 30, 30, 30, 10, nflxTicker⟩, ⟨15, 60, 60, 60, 60, 10, nflxTicker⟩]

/-! ### C1: VWAP over the trailing window -/

/-- C1 counterexample: on bars 15 minutes apart the VWAP the code computes
at the later bar is not the ratio of the spec's both-ends-inclusive
windowed sums — the bar sitting exactly on the left edge is left out
(code: 600/10 = 60; spec with an inclusive left edge: 900/20 = 45). -/
theorem vwap_ignores_left_edge_bar :
    ((transform_data demoA).get? 1).map AggBar.vwap ≠
      some (fdiv (specWindowSumIncl cumulativeTPV demoA 15)
                 (specWindowSumIncl volCol demoA 15)) := by
  have hget := transform_data_get? demoA 1 (by norm_num [demoA])
  rw [hget]
  have hl : (aggAt demoA 1).vwap = FVal.val 60 := by
    norm_num [aggAt, rollingSumAt, demoA, cumulativeTPV, typicalPrice, volCol,
      fdiv, List.filter_cons, List.getD]
  have hr : fdiv (specWindowSumIncl cumulativeTPV demoA 15)
      (specWindowSumIncl volCol demoA 15) = FVal.val 45 := by
    norm_num [specWindowSumIncl, demoA, cumulativeTPV, typicalPrice, volCol,
      fdiv, List.filter_cons]
  simp only [Option.map_some', hl, hr, ne_eq, Option.some.injEq,
    FVal.val.injEq]
  norm_num

/-- C1 (amended): for a series sorted strictly ascending by timestamp, the
VWAP `transform_data` attaches to each bar is the IEEE quotient of the
typical-price-times-volume sum and the volume sum taken over exactly the
bars of the left-open window `(t - 15 min, t]`; in particular it equals
the ratio of the two sums whenever the windowed volume is nonzero. -/
theorem transform_vwap_eq_window_ratio (bars : List Bar) (hs : TsSorted bars)
    (i : ℕ) (ab : AggBar) (h : (transform_data bars).get? i = some ab) :
    ab.vwap = fdiv (windowSumStrict cumulativeTPV bars ab.bar.ts)
                   (windowSumStrict volCol bars ab.bar.ts) := by
  obtain ⟨hi, rfl⟩ := transform_data_get?_inv h
  have h1 := rollingSumAt_eq_windowSumStrict cumulativeTPV hs hi
  have h2 := rollingSumAt_eq_windowSumStrict volCol hs hi
  simp only [aggAt] at h1 h2 ⊢
  rw [h1, h2]

theorem transform_vwap_eq_window_ratio_witness :
    TsSorted demoV ∧ (transform_data demoV).get? 2 = some demoAgg3 ∧
    demoAgg3.vwap = fdiv (windowSumStrict cumulativeTPV demoV demoAgg3.bar.ts)
                         (windowSumStrict volCol demoV demoAgg3.bar.ts) :=
  have hs : TsSorted demoV := by decide
  have hget : (transform_data demoV).get? 2 = some demoAgg3 := by
    rw [transform_data_get? demoV 2 (by norm_num [demoV])]
    norm_num [aggAt, demoAgg3, demoV, demoVb1, demoVb2, demoVb3, rollingSumAt,
      dollarValueAt, cumulativeTPV, typicalPrice, volCol, fdiv,
      List.filter_cons, List.getD, AggBar.mk.injEq, FVal.val.injEq]
  ⟨hs, hget, transform_vwap_eq_window_ratio demoV hs 2 demoAgg3 hget⟩

/-! ### C2: window boundary -/

/-- C2 counterexample: with bars at T and T + 15 min, the rolling volume the
code computes at the later bar differs from the volume sum over the spec's
both-ends-inclusive window — the bar at T is not in the code's window. -/
theorem window_left_edge_excluded :
    rollingSumAt volCol [gapBar0, gapBar1] 1 ≠
      specWindowSumIncl volCol [gapBar0, gapBar1] gapBar1.ts := by
  norm_num [rollingSumAt, specWindowSumIncl, gapBar0, gapBar1, volCol,
    List.filter_cons, List.getD]

/-- C2 (amended): the trailing window is left-open, right-closed. For a
two-bar series the earlier bar is counted in the window ending at the later
bar exactly when the timestamps are at most 14 minutes apart: at a gap of
exactly 15 minutes (and a fortiori 16) the earlier bar is excluded, while
the bar at the window's right end is always included. -/
theorem rolling_window_left_open (b0 b1 : Bar) (h : b0.ts < b1.ts) :
    rollingSumAt volCol [b0, b1] 1 =
      (if b1.ts - b0.ts ≤ 14 then b0.volume else 0) + b1.volume := by
  have h1 : b1.ts - 15 < b1.ts := by omega
  by_cases hc : b1.ts - b0.ts ≤ 14
  · have h0 : b1.ts - 15 < b0.ts := by omega
    simp [rollingSumAt, volCol, List.filter_cons, h0, h1, hc]
  · have h0 : ¬ (b1.ts - 15 < b0.ts) := by omega
    simp [rollingSumAt, volCol, List.filter_cons, h0, h1, hc]

theorem rolling_window_left_open_witness :
    gapBar0.ts < gapBar1.ts ∧
    rollingSumAt volCol [gapBar0, gapBar1] 1 =
      (if gapBar1.ts - gapBar0.ts ≤ 14 then gapBar0.volume else 0) +
        gapBar1.volume :=
  ⟨by decide, rolling_window_left_open gapBar0 gapBar1 (by decide)⟩

/-! ### C3 / C10: zero-volume windows -/

/-- A single bar with zero volume: its 15-minute window has volume sum 0. -/
def nanBar : Bar := ⟨0, 10, 12, 9, 11, 0, disTicker⟩

/-- C3: on a bar whose rolling window has zero total volume the code
performs the division anyway; the 0/0 quotient is NaN and it is stored in
the output's VWAP column — there is no explicit null/carry-forward policy
and no error. -/
theorem vwap_nan_propagates :
    transform_data [nanBar] = [⟨nanBar, FVal.nan, 0⟩] := by
  norm_num [transform_data, List.range_succ, aggAt, rollingSumAt,
    dollarValueAt, fdiv, cumulativeTPV, typicalPrice, volCol, nanBar,
    List.filter_cons, List.getD]

lemma vol_zero_of_sum_zero :
    ∀ (l : List Bar), (∀ b ∈ l, 0 ≤ b.volume) →
      (l.map volCol).sum = 0 → ∀ b ∈ l, b.volume = 0 := by
  intro l
  induction l with
  | nil => simp
  | cons a l ih =>
    intro hnn hsum b hb
    have ha : 0 ≤ a.volume := hnn a (List.mem_cons_self a l)
    have hl : 0 ≤ (l.map volCol).sum := by
      apply List.sum_nonneg
      intro x hx
      obtain ⟨c, hc, rfl⟩ := List.mem_map.mp hx
      exact hnn c (List.mem_cons_of_mem _ hc)
    simp only [List.map_cons, List.sum_cons, volCol] at hsum
    have ha0 : a.volume = 0 := by linarith
    have hs0 : (l.map volCol).sum = 0 := by linarith
    rcases List.mem_cons.mp hb with rfl | hb
    · exact ha0
    · exact ih (fun c hc => hnn c (List.mem_cons_of_mem _ hc)) hs0 b hb

/-- C10: with non-negative volumes, a zero rolling volume sum forces every
bar in the window to have zero volume, hence the rolling
typical-price-times-volume sum is also zero and the VWAP division is the
indeterminate form 0/0 — NaN, never a nonzero value over zero (±infinity). -/
theorem zero_volume_window_gives_nan (bars : List Bar)
    (hv : ∀ b ∈ bars, 0 ≤ b.volume) (i : ℕ) (ab : AggBar)
    (h : (transform_data bars).get? i = some ab)
    (hz : rollingSumAt volCol bars i = 0) :
    rollingSumAt cumulativeTPV bars i = 0 ∧ ab.vwap = FVal.nan := by
  obtain ⟨hi, rfl⟩ := transform_data_get?_inv h
  have hnn : ∀ b ∈ (bars.take (i + 1)).filter
      (fun b => decide ((bars.getD i default).ts - 15 < b.ts)), 0 ≤ b.volume :=
    fun b hb => hv b (List.take_subset _ _ (List.mem_of_mem_filter hb))
  have hvols := vol_zero_of_sum_zero _ hnn hz
  have key : rollingSumAt cumulativeTPV bars i = 0 := by
    apply List.sum_eq_zero
    intro x hx
    obtain ⟨b, hb, rfl⟩ := List.mem_map.mp hx
    simp [cumulativeTPV, hvols b hb]
  exact ⟨key, by simp [aggAt, fdiv, hz, key]⟩

theorem zero_volume_window_gives_nan_witness :
    (∀ b ∈ [nanBar], 0 ≤ b.volume) ∧
    (transform_data [nanBar]).get? 0 = some (⟨nanBar, FVal.nan, 0⟩ : AggBar) ∧
    rollingSumAt volCol [nanBar] 0 = 0 ∧
    (rollingSumAt cumulativeTPV [nanBar] 0 = 0 ∧
      (⟨nanBar, FVal.nan, 0⟩ : AggBar).vwap = FVal.nan) :=
  have hv : ∀ b ∈ [nanBar], 0 ≤ b.volume := by
    intro b hb
    rcases List.mem_singleton.mp hb with rfl
    norm_num [nanBar]
  have hget : (transform_data [nanBar]).get? 0 =
      some (⟨nanBar, FVal.nan, 0⟩ : AggBar) := by
    rw [vwap_nan_propagates]
    rfl
  have hz : rollingSumAt volCol [nanBar] 0 = 0 := by
    norm_num [rollingSumAt, volCol, nanBar, List.filter_cons, List.getD]
  ⟨hv, hget, hz, zero_volume_window_gives_nan [nanBar] hv 0 _ hget hz⟩

/-! ### C5 / C6: cumulative dollar value -/

/-- The spec's running dollar-value sum: close times volume over every bar
of the series with timestamp at most `t`. -/
def specCumDollar (bars : List Bar) (t : ℤ) : ℚ :=
  ((bars.filter (fun b => decide (b.ts ≤ t))).map (fun b => b.close * b.volume)).sum

lemma dollarValueAt_eq_specCumDollar {bars : List Bar} (hs : TsSorted bars)
    {i : ℕ} (hi : i < bars.length) :
    dollarValueAt bars i = specCumDollar bars (bars.getD i default).ts := by
  have hgd : bars.getD i default = bars[i] := List.getD_eq_getElem bars default hi
  set t := (bars.getD i default).ts with ht
  have hts : t = bars[i].ts := by rw [ht, hgd]
  have hsplit : bars.filter (fun b => decide (b.ts ≤ t)) =
      (bars.take (i + 1)).filter (fun b => decide (b.ts ≤ t)) ++
        (bars.drop (i + 1)).filter (fun b => decide (b.ts ≤ t)) := by
    conv_lhs => rw [← List.take_append_drop (i + 1) bars]
    rw [List.filter_append]
  have hdrop : (bars.drop (i + 1)).filter (fun b => decide (b.ts ≤ t)) = [] := by
    rw [List.filter_eq_nil_iff]
    intro b hb
    have hlt := ts_lt_of_mem_drop hs hi hb
    simp only [decide_eq_true_eq]
    omega
  have htake : (bars.take (i + 1)).filter (fun b => decide (b.ts ≤ t)) =
      bars.take (i + 1) := by
    rw [List.filter_eq_self]
    intro b hb
    have hle := ts_le_of_mem_take hs hi hb
    simp only [decide_eq_true_eq]
    omega
  rw [specCumDollar, hsplit, hdrop, htake, List.append_nil, dollarValueAt]

/-- C5: for a series sorted strictly ascending by timestamp, the
`DollarValue` column is the unwindowed running sum of close times volume
over all bars with timestamp at most the current bar's. -/
theorem transform_dollar_value_eq_running_sum (bars : List Bar)
    (hs : TsSorted bars) (i : ℕ) (ab : AggBar)
    (h : (transform_data bars).get? i = some ab) :
    ab.dollarValue = specCumDollar bars ab.bar.ts := by
  obtain ⟨hi, rfl⟩ := transform_data_get?_inv h
  exact dollarValueAt_eq_specCumDollar hs hi

theorem transform_dollar_value_eq_running_sum_witness :
    TsSorted demoV ∧ (transform_data demoV).get? 1 = some demoAgg2 ∧
    demoAgg2.dollarValue = specCumDollar demoV demoAgg2.bar.ts :=
  have hs : TsSorted demoV := by decide
  have hget : (transform_data demoV).get? 1 = some demoAgg2 := by
    rw [transform_data_get? demoV 1 (by norm_num [demoV])]
    norm_num [aggAt, demoAgg2, demoV, demoVb1, demoVb2, demoVb3, rollingSumAt,
      dollarValueAt, cumulativeTPV, typicalPrice, volCol, fdiv,
      List.filter_cons, List.getD, AggBar.mk.injEq, FVal.val.injEq]
  ⟨hs, hget, transform_dollar_value_eq_running_sum demoV hs 1 demoAgg2 hget⟩

lemma dollarValueAt_succ {bars : List Bar} {i : ℕ} (hi : i + 1 < bars.length) :
    dollarValueAt bars (i + 1) =
      dollarValueAt bars i + bars[i + 1].close * bars[i + 1].volume := by
  unfold dollarValueAt
  rw [List.take_succ, List.getElem?_eq_getElem hi, List.map_append,
    List.sum_append]
  simp

/-- C6: with non-negative closes and volumes, consecutive `DollarValue`
entries of the transformed output never decrease. -/
theorem transform_dollar_value_monotone (bars : List Bar)
    (hnn : ∀ b ∈ bars, 0 ≤ b.close ∧ 0 ≤ b.volume) (i : ℕ) (a a' : AggBar)
    (h1 : (transform_data bars).get? i = some a)
    (h2 : (transform_data bars).get? (i + 1) = some a') :
    a.dollarValue ≤ a'.dollarValue := by
  obtain ⟨hi, rfl⟩ := transform_data_get?_inv h1
  obtain ⟨hi', rfl⟩ := transform_data_get?_inv h2
  show dollarValueAt bars i ≤ dollarValueAt bars (i + 1)
  rw [dollarValueAt_succ hi']
  have hb := hnn _ (List.getElem_mem hi')
  have := mul_nonneg hb.1 hb.2
  linarith

theorem transform_dollar_value_monotone_witness :
    (∀ b ∈ demoV, 0 ≤ b.close ∧ 0 ≤ b.volume) ∧
    (transform_data demoV).get? 0 = some demoAgg1 ∧
    (transform_data demoV).get? 1 = some demoAgg2 ∧
    demoAgg1.dollarValue ≤ demoAgg2.dollarValue :=
  have hnn : ∀ b ∈ demoV, 0 ≤ b.close ∧ 0 ≤ b.volume := by
    intro b hb
    simp only [demoV, List.mem_cons, List.not_mem_nil, or_false] at hb
    rcases hb with rfl | rfl | rfl
    · exact ⟨by norm_num [demoVb1], by norm_num [demoVb1]⟩
    · exact ⟨by norm_num [demoVb2], by norm_num [demoVb2]⟩
    · exact ⟨by norm_num [demoVb3], by norm_num [demoVb3]⟩
  have h1 : (transform_data demoV).get? 0 = some demoAgg1 := by
    rw [transform_data_get? demoV 0 (by norm_num [demoV])]
    norm_num [aggAt, demoAgg1, demoV, demoVb1, demoVb2, demoVb3, rollingSumAt,
      dollarValueAt, cumulativeTPV, typicalPrice, volCol, fdiv,
      List.filter_cons, List.getD, AggBar.mk.injEq, FVal.val.injEq]
  have h2 : (transform_data demoV).get? 1 = some demoAgg2 := by
    rw [transform_data_get? demoV 1 (by norm_num [demoV])]
    norm_num [aggAt, demoAgg2, demoV, demoVb1, demoVb2, demoVb3, rollingSumAt,
      dollarValueAt, cumulativeTPV, typicalPrice, volCol, fdiv,
      List.filter_cons, List.getD, AggBar.mk.injEq, FVal.val.injEq]
  ⟨hnn, h1, h2, transform_dollar_value_monotone demoV hnn 0 demoAgg1 demoAgg2 h1 h2⟩

/-! ### C7: merge ordering -/

/-- Two branch rows with the same timestamp; `NFLX` precedes `DIS` in the
pipeline's branch order, but alphabetically `DIS` comes first. -/
def mergeNflxRow : AggBar := ⟨⟨570, 9, 10, 8, 9, 100, nflxTicker⟩, FVal.val 9, 900⟩

def mergeDisRow : AggBar := ⟨⟨570, 5, 6, 4, 5, 50, disTicker⟩, FVal.val 5, 250⟩

/-- C7 counterexample: the merge sorts by timestamp only, so rows with
equal timestamps stay in branch (concatenation) order, which is not the
symbol order the spec claims. -/
theorem merge_no_symbol_tiebreak :
    ¬ postMergeOrdered (write_to_csv_output [[mergeNflxRow], [mergeDisRow]]) := by
  intro h
  have hout : write_to_csv_output [[mergeNflxRow], [mergeDisRow]] =
      [mergeNflxRow, mergeDisRow] := by
    simp [write_to_csv_output, List.insertionSort, List.orderedInsert,
      byDatetime, mergeNflxRow, mergeDisRow]
  rw [hout] at h
  have hrel := (List.pairwise_cons.mp h).1 mergeDisRow (List.mem_singleton.mpr rfl)
  rcases hrel with hlt | ⟨-, hle⟩
  · exact absurd hlt (by decide)
  · exact absurd hle (by decide)

/-- C7 (amended): the merge step concatenates the branch outputs and sorts
them ascending by timestamp alone — the output is a permutation of the
concatenation that is `byDatetime`-sorted; no symbol tiebreak is applied,
so equal timestamps keep the concatenation order of the stable sort. -/
theorem merge_sorted_by_timestamp (dfs : List (List AggBar)) :
    List.Sorted byDatetime (write_to_csv_output dfs) ∧
      (write_to_csv_output dfs).Perm dfs.flatten := by
  constructor
  · haveI : IsTotal AggBar byDatetime := ⟨fun a b => Int.le_total a.bar.ts b.bar.ts⟩
    haveI : IsTrans AggBar byDatetime := ⟨fun a b c h1 h2 => le_trans h1 h2⟩
    exact List.sorted_insertionSort byDatetime dfs.flatten
  · exact List.perm_insertionSort byDatetime dfs.flatten
